import Mathlib

/-!
Verification of the change-set resolution and trigger-matching engine of
`git-preflight` (src/cmd/git-preflight/git-preflight.go).

Strings are modelled as Lean `String` / `List Char`; each `Char` stands for one
unicode scalar value of the Go string (the repository only ever compares, scans
and slices at rune boundaries, so this is faithful for valid UTF-8 input).
Fallible Go functions returning `(T, error)` are modelled as `Except Unit T`
(the only error value of the glob engine is `ErrBadPattern`).

The glob engine is Go's `path.Match` (package `path`, imported at line 9 of the
source and used by `match` at lines 110/120 and by `validateTrigger` at lines
87/93).  The loops of `path.Match` that do not structurally recurse are given
explicit fuel; the wrappers allocate fuel that provably never runs out, so the
wrappers are extensionally the Go functions.
-/

deriving instance DecidableEq for Except

namespace GitPreflight

/-- Result discriminator for `Except`: `true` on `.ok`. -/
def exceptOk {ε α : Type} : Except ε α → Bool
  | .ok _ => true
  | .error _ => false

@[simp] theorem exceptOk_ok {ε α : Type} (a : α) : @exceptOk ε α (.ok a) = true := rfl

@[simp] theorem exceptOk_error {ε α : Type} (e : ε) : @exceptOk ε α (.error e) = false := rfl

theorem exceptOk_eq_true {ε α : Type} {x : Except ε α} (h : exceptOk x = true) :
    ∃ a, x = .ok a := by
  cases x with
  | ok a => exact ⟨a, rfl⟩
  | error e => simp [exceptOk] at h

/-! ## Go `path.Match`: chunk scanning

`scanChunk` gets the next segment of the pattern: a possibly empty run of
leading `*`s followed by a maximal star-free chunk (a `*` inside `[...]` or
after `\` does not end the chunk). -/

/-- Scanning loop of Go `scanChunk`: split off the leading star-free chunk,
tracking whether the scanner is inside a bracket range. -/
def scanChunkLoop : Bool → List Char → List Char × List Char
  | _, [] => ([], [])
  | inrange, c :: rest =>
    if c = '\\' then
      match rest with
      | [] => ([c], [])
      | d :: rest2 =>
        let p := scanChunkLoop inrange rest2
        (c :: d :: p.1, p.2)
    else if c = '*' then
      if inrange then
        let p := scanChunkLoop inrange rest
        (c :: p.1, p.2)
      else ([], c :: rest)
    else
      let p := scanChunkLoop (if c = '[' then true else if c = ']' then false else inrange) rest
      (c :: p.1, p.2)

/-- True when the pattern starts with at least one `*`. -/
def leadingStar : List Char → Bool
  | [] => false
  | c :: _ => c == '*'

/-- Drop the leading run of `*`s of the pattern. -/
def dropStars : List Char → List Char
  | [] => []
  | c :: rest => if c = '*' then dropStars rest else c :: rest

/-- Go `scanChunk`: `(star, chunk, rest)`. -/
def scanChunk (p : List Char) : Bool × List Char × List Char :=
  let r := scanChunkLoop false (dropStars p)
  (leadingStar p, r.1, r.2)

/-! ## Go `path.Match`: chunk matching -/

/-- Go `getEsc`: read one possibly-escaped character of a bracket range.
Errors when the chunk is exhausted, starts with `-` or `]`, ends right after a
`\`, or would leave nothing for the closing `]`. -/
def getEsc : List Char → Except Unit (Char × List Char)
  | [] => .error ()
  | c :: rest =>
    if c = '-' ∨ c = ']' then .error ()
    else if c = '\\' then
      match rest with
      | [] => .error ()
      | d :: rest2 => if rest2.isEmpty then .error () else .ok (d, rest2)
    else if rest.isEmpty then .error () else .ok (c, rest)

/-- Range-parsing loop of the `[` case of Go `matchChunk`: consume `lo`/`lo-hi`
ranges until the closing `]` (which only closes once at least one range was
seen), accumulating whether the candidate rune `r` fell in some range.
Returns `(matched, remaining chunk)`.  Fueled; the wrapper allocates enough. -/
def parseRangesF : Nat → Char → List Char → Bool → Bool → Except Unit (Bool × List Char)
  | 0, _, _, _, _ => .error ()
  | fuel+1, r, chunk, matched, nrangePos =>
    if nrangePos ∧ chunk.head? = some ']' then .ok (matched, chunk.tail)
    else
      match getEsc chunk with
      | .error e => .error e
      | .ok (lo, chunk1) =>
        if chunk1.head? = some '-' then
          match getEsc chunk1.tail with
          | .error e => .error e
          | .ok (hi, chunk3) => parseRangesF fuel r chunk3 (matched || (lo ≤ r && r ≤ hi)) true
        else parseRangesF fuel r chunk1 (matched || (lo ≤ r && r ≤ lo)) true

/-- Range-parsing loop with its canonical fuel. -/
def parseRanges (r : Char) (chunk : List Char) (matched nrangePos : Bool) :
    Except Unit (Bool × List Char) :=
  parseRangesF (chunk.length + 1) r chunk matched nrangePos

/-- The zero rune: value of an uninitialised Go `rune` variable. -/
def rune0 : Char := Char.ofNat 0

/-- Loop body of Go `matchChunk`, fueled.  `matchChunkLoopF fuel chunk s failed`
walks the chunk; once `failed` is set it keeps scanning the chunk only to
surface syntax errors.  Returns `some rest-of-s` on success, `none` on a
well-formed non-match, `.error` on a malformed chunk. -/
def matchChunkLoopF : Nat → List Char → List Char → Bool → Except Unit (Option (List Char))
  | 0, _, _, _ => .error ()
  | fuel+1, chunk, s, failed0 =>
    match chunk with
    | [] => if failed0 then .ok none else .ok (some s)
    | c :: chunkRest =>
      let failed := failed0 || s.isEmpty
      if c = '[' then
        let r := if failed then rune0 else s.headD rune0
        let s2 := if failed then s else s.tail
        let negated := decide (chunkRest.head? = some '^')
        let chunkA := if negated then chunkRest.tail else chunkRest
        match parseRanges r chunkA false false with
        | .error _ => .error ()
        | .ok (m, chunkB) =>
          matchChunkLoopF fuel chunkB s2 (if m = negated then true else failed)
      else if c = '?' then
        if failed then matchChunkLoopF fuel chunkRest s failed
        else matchChunkLoopF fuel chunkRest s.tail (decide (s.headD rune0 = '/'))
      else if c = '\\' then
        match chunkRest with
        | [] => .error ()
        | d :: chunkRest2 =>
          if failed then matchChunkLoopF fuel chunkRest2 s failed
          else matchChunkLoopF fuel chunkRest2 s.tail (decide (d ≠ s.headD rune0))
      else
        if failed then matchChunkLoopF fuel chunkRest s failed
        else matchChunkLoopF fuel chunkRest s.tail (decide (c ≠ s.headD rune0))

/-- Go `matchChunk` with its canonical fuel. -/
def matchChunk (chunk s : List Char) : Except Unit (Option (List Char)) :=
  matchChunkLoopF (chunk.length + 1) chunk s false

/-! ## Go `path.Match`: outer loop -/

/-- The star-skipping loop of Go `Match`: try the chunk at each later position
of the name, never skipping a `/`.  `restEmpty` records whether this chunk is
the last of the pattern (then a partial match must not leave residue). -/
def starLoop (chunk : List Char) (restEmpty : Bool) : List Char → Except Unit (Option (List Char))
  | [] => .ok none
  | c :: nm =>
    if c = '/' then .ok none
    else
      match matchChunk chunk nm with
      | .error _ => .error ()
      | .ok (some t) =>
        if restEmpty && !t.isEmpty then starLoop chunk restEmpty nm
        else .ok (some t)
      | .ok none => starLoop chunk restEmpty nm

/-- Validation loop of Go `Match` run before `return false, nil`: the remaining
pattern chunks are scanned against the empty string so that syntax errors are
reported even on non-matching names.  Fueled. -/
def validateRestF : Nat → List Char → Except Unit Unit
  | 0, _ => .error ()
  | fuel+1, pat =>
    match pat with
    | [] => .ok ()
    | _ :: _ =>
      let sc := scanChunk pat
      match matchChunk sc.2.1 [] with
      | .error _ => .error ()
      | .ok _ => validateRestF fuel sc.2.2

/-- Validation loop with its canonical fuel. -/
def validateRest (p : List Char) : Except Unit Unit := validateRestF (p.length + 1) p

/-- Tail of one iteration of Go `Match` after the in-place chunk match neither
succeeded-and-continued nor errored: run the star loop when the segment had a
leading `*`; if nothing matches, validate the remaining pattern and report a
non-match.  `.ok (some t)` means continue the outer loop with name `t`;
`.ok none` means `Match` returns `(false, nil)`. -/
def goFall (star : Bool) (chunk rest name : List Char) : Except Unit (Option (List Char)) :=
  if star then
    match starLoop chunk rest.isEmpty name with
    | .error _ => .error ()
    | .ok (some t) => .ok (some t)
    | .ok none =>
      match validateRest rest with
      | .error _ => .error ()
      | .ok () => .ok none
  else
    match validateRest rest with
    | .error _ => .error ()
    | .ok () => .ok none

/-- Outer loop of Go `path.Match`, fueled: one unit of fuel per scanned pattern
segment. -/
def goMatchF : Nat → List Char → List Char → Except Unit Bool
  | 0, _, _ => .error ()
  | fuel+1, pat, name =>
    match pat with
    | [] => .ok name.isEmpty
    | _ :: _ =>
      let sc := scanChunk pat
      if sc.1 && sc.2.1.isEmpty then .ok (!name.contains '/')
      else
        let step : Except Unit (Option (List Char)) :=
          match matchChunk sc.2.1 name with
          | .error _ => .error ()
          | .ok (some t) =>
            if t.isEmpty || !sc.2.2.isEmpty then .ok (some t)
            else goFall sc.1 sc.2.1 sc.2.2 name
          | .ok none => goFall sc.1 sc.2.1 sc.2.2 name
        match step with
        | .error _ => .error ()
        | .ok (some t) => goMatchF fuel sc.2.2 t
        | .ok none => .ok false

/-- Go `path.Match` on rune lists, with its canonical fuel. -/
def goMatch (p n : List Char) : Except Unit Bool := goMatchF (p.length + 1) p n

/-- Go `path.Match(pattern, name)`. -/
def pathMatch (pat name : String) : Except Unit Bool := goMatch pat.data name.data

/-! ## Go `path.Base` and helpers used by `match` -/

/-- Go `path.Base`: last element of the path, after stripping trailing
slashes; `"."` for the empty path, `"/"` for an all-slash path. -/
def pathBase (p : String) : String :=
  if p = "" then "."
  else
    let rev := p.data.reverse.dropWhile (fun c => decide (c = '/'))
    let base := (rev.takeWhile (fun c => decide (c ≠ '/'))).reverse
    if base.isEmpty then "/" else String.mk base

/-- Go `strings.Contains(s, "/")`. -/
def containsSlash (s : String) : Bool := s.data.contains '/'

/-! ## Data model (source lines 24-38) -/

/-- Source `TriggerConfig` (lines 24-31). -/
structure TriggerConfig where
  Name : String
  Cmd : List String
  InputType : String
  Includes : List String
  Excludes : List String
deriving DecidableEq, Repr

/-- Source `PreflightConfig` (lines 34-38). -/
structure PreflightConfig where
  Triggers : List TriggerConfig
deriving DecidableEq, Repr

/-! ## The trigger pattern matcher (source `match`, lines 104-131) -/

/-- Exclude loop of `match` (lines 118-127): report a match of any exclude
pattern against the candidate name fixed by the matching include pattern,
stopping at the first hit; a malformed exclude pattern is an error. -/
def matchExcludes : List String → String → Except Unit Bool
  | [], _ => .ok false
  | pat :: rest, matchName =>
    match pathMatch pat matchName with
    | .error _ => .error ()
    | .ok true => .ok true
    | .ok false => matchExcludes rest matchName

/-- Include loop of `match` (lines 105-129): for each include pattern the
candidate name is the basename of `fname` when the pattern has no `/`, the
full path otherwise; on the first include hit the excludes are consulted
against that same candidate name. -/
def matchIncludes (excludes : List String) (fname : String) : List String → Except Unit Bool
  | [] => .ok false
  | pat :: rest =>
    let matchName := if containsSlash pat then fname else pathBase fname
    match pathMatch pat matchName with
    | .error _ => .error ()
    | .ok false => matchIncludes excludes fname rest
    | .ok true =>
      match matchExcludes excludes matchName with
      | .error _ => .error ()
      | .ok true => .ok false
      | .ok false => .ok true

/-- Source `match(tr, fname)` (lines 104-131); `match` is a Lean keyword, so
the embedding is named `matchTrigger`. -/
def matchTrigger (tr : TriggerConfig) (fname : String) : Except Unit Bool :=
  matchIncludes tr.Excludes fname tr.Includes

/-! ## Config validation (source lines 58-98) -/

/-- The validation errors produced by `validateConfig`/`validateTrigger`,
tagged with the data the source interpolates into the message. -/
inductive VError where
  | duplicateName : String → VError
  | emptyName : VError
  | whitespaceName : String → VError
  | invalidInputType : String → String → VError
  | invalidIncludePat : String → String → VError
  | invalidExcludePat : String → String → VError
deriving DecidableEq, Repr

/-- The trial match of a pattern against the empty string used by
`validateTrigger` (lines 87, 93) to surface glob syntax errors. -/
def patternOk (pat : String) : Bool := exceptOk (pathMatch pat "")

/-- Pattern loops of `validateTrigger` (lines 86-96). -/
def validatePats (bad : String → VError) : List String → Except VError Unit
  | [] => .ok ()
  | pat :: rest => if patternOk pat then validatePats bad rest else .error (bad pat)

/-- Go `strings.ContainsAny(s, " \t\r\n")` (line 77). -/
def containsWhitespace (s : String) : Bool :=
  s.data.any fun c =>
    decide (c = ' ') || decide (c = '\t') || decide (c = '\r') || decide (c = '\n')

/-- Source `validateTrigger` (lines 73-98). -/
def validateTrigger (tr : TriggerConfig) : Except VError Unit :=
  if tr.Name = "" then .error .emptyName
  else if containsWhitespace tr.Name then .error (.whitespaceName tr.Name)
  else if tr.InputType ≠ "args" then .error (.invalidInputType tr.InputType tr.Name)
  else
    match validatePats (fun p => .invalidIncludePat p tr.Name) tr.Includes with
    | .error e => .error e
    | .ok () => validatePats (fun p => .invalidExcludePat p tr.Name) tr.Excludes

/-- Loop of source `validateConfig` (lines 58-71); the `nameMap` set is the
list of names already seen. -/
def validateConfigLoop : List String → List TriggerConfig → Except VError Unit
  | _, [] => .ok ()
  | seen, t :: rest =>
    if t.Name ∈ seen then .error (.duplicateName t.Name)
    else
      match validateTrigger t with
      | .error e => .error e
      | .ok () => validateConfigLoop (t.Name :: seen) rest

/-- Source `validateConfig` (lines 58-71). -/
def validateConfig (cfg : PreflightConfig) : Except VError Unit :=
  validateConfigLoop [] cfg.Triggers

/-! ## Change-set aggregation (source lines 169-192)

The Go `map[string]bool` set is modelled as a duplicate-free list in insertion
order; `sort.Strings` then sorts, so the arbitrary iteration order of
`stringSet2Slice` is immaterial: sorting depends only on the multiset of keys. -/

/-- Insertion into the changed-file set (line 186). -/
def insertSet (l : List String) (s : String) : List String :=
  if s ∈ l then l else l ++ [s]

/-- The union of the three change sources (lines 183-188). -/
def setUnion (srcs : List (List String)) : List String :=
  srcs.foldl (fun acc fs => fs.foldl insertSet acc) []

/-- Lexicographic comparison of rune sequences: Go `<=` on strings (byte-wise
lexicographic, which agrees with scalar-value order for valid UTF-8). -/
def charListLe : List Char → List Char → Bool
  | [], _ => true
  | _ :: _, [] => false
  | a :: as, b :: bs => if a < b then true else if b < a then false else charListLe as bs

/-- Go string comparison `a <= b`. -/
def strLe (a b : String) : Bool := charListLe a.data b.data

/-- Go `sort.Strings` (line 192): sort lexicographically.  Go's sort may use
any algorithm; since the order is total and antisymmetric the sorted
permutation is unique, so insertion sort is extensionally `sort.Strings`. -/
def sortStrings (l : List String) : List String :=
  l.insertionSort (fun a b => strLe a b = true)

/-- Changed-file resolution of `runPreflight` (lines 169-192): with a commit
hash the reported commit file list is used as is; otherwise the three sources
are unioned into a set.  Either way the result is then sorted. -/
def resolveChangedFiles (commitFiles : Option (List String))
    (committedFiles unstagedFiles stagedFiles : List String) : List String :=
  match commitFiles with
  | some fs => sortStrings fs
  | none => sortStrings (setUnion [committedFiles, unstagedFiles, stagedFiles])

/-! ## Trigger orchestration (source lines 208-277)

Subprocess execution is the external collaborator: `exec cmdArgs = true`
models `cmd.Run()` succeeding.  Fatal `exitOnError`/`os.Exit` terminations are
modelled as `Except.error` carrying the run state accumulated so far. -/

/-- Run state: the dry-run lines printed (trigger name and quoted argument
vector, line 263) and the subprocesses spawned (lines 267-271), in order,
plus the `hasError` flag (lines 229, 270). -/
structure RunState where
  dryRunLines : List (String × List String)
  executed : List (String × List String)
  hasError : Bool
deriving DecidableEq, Repr

/-- Fatal terminations inside `runPreflight` after config load. -/
inductive RunFatal where
  | noSuchTrigger : String → RunFatal
  | matchErr : RunFatal
  | invalidInput : String → String → RunFatal
deriving DecidableEq, Repr

/-- File filter of the trigger loop (lines 236-245). -/
def filterMatched (tr : TriggerConfig) : List String → Except Unit (List String)
  | [] => .ok []
  | f :: rest =>
    match matchTrigger tr f with
    | .error _ => .error ()
    | .ok true =>
      match filterMatched tr rest with
      | .error e => .error e
      | .ok l => .ok (f :: l)
    | .ok false => filterMatched tr rest

/-- Body of the trigger loop for one enabled trigger (lines 236-271). -/
def processTrigger (tr : TriggerConfig) (changedFiles : List String) (dryRun : Bool)
    (exec : List String → Bool) (st : RunState) : Except RunFatal RunState :=
  match filterMatched tr changedFiles with
  | .error _ => .error .matchErr
  | .ok fnames =>
    if fnames.isEmpty then .ok st
    else if tr.InputType = "args" then
      let cmdArgs := tr.Cmd ++ fnames
      if dryRun then .ok { st with dryRunLines := st.dryRunLines ++ [(tr.Name, cmdArgs)] }
      else .ok { st with executed := st.executed ++ [(tr.Name, cmdArgs)],
                         hasError := st.hasError || !exec cmdArgs }
    else .error (.invalidInput tr.InputType tr.Name)

/-- The trigger loop (lines 230-272), iterating in config declaration order
and skipping triggers that are not enabled. -/
def runLoop (enabled : String → Bool) (changedFiles : List String) (dryRun : Bool)
    (exec : List String → Bool) : List TriggerConfig → RunState →
    Except (RunFatal × RunState) RunState
  | [], st => .ok st
  | tr :: rest, st =>
    if enabled tr.Name then
      match processTrigger tr changedFiles dryRun exec st with
      | .error e => .error (e, st)
      | .ok st2 => runLoop enabled changedFiles dryRun exec rest st2
    else runLoop enabled changedFiles dryRun exec rest st

/-- State before the trigger loop: nothing printed, nothing spawned. -/
def initState : RunState := ⟨[], [], false⟩

/-- Trigger selection and the trigger loop of `runPreflight` (lines 208-277):
an empty requested-name list enables every configured trigger; a requested
name absent from the config is fatal before the loop starts. -/
def runPreflight (cfg : PreflightConfig) (requestedNames changedFiles : List String)
    (dryRun : Bool) (exec : List String → Bool) : Except (RunFatal × RunState) RunState :=
  let cfgNames := cfg.Triggers.map (fun t => t.Name)
  let triggerNames := if requestedNames.isEmpty then cfgNames else requestedNames
  match triggerNames.find? (fun n => !cfgNames.contains n) with
  | some n => .error (.noSuchTrigger n, initState)
  | none => runLoop (fun n => triggerNames.contains n) changedFiles dryRun exec cfg.Triggers initState

/-- Exit code of a run (lines 274-276 and `exitOnError`): 1 on a fatal error
or when some trigger subprocess failed, 0 otherwise. -/
def exitCode (r : Except (RunFatal × RunState) RunState) : Nat :=
  match r with
  | .error _ => 1
  | .ok st => if st.hasError then 1 else 0

/-! ## Specification-side helpers used to state the claims -/

/-- Candidate name an include pattern is compared against (lines 106-109). -/
def includeCandidate (pat fname : String) : String :=
  if containsSlash pat then fname else pathBase fname

/-- Whether an include pattern matches a filename under the basename rule. -/
def includeMatchB (pat fname : String) : Bool :=
  decide (pathMatch pat (includeCandidate pat fname) = .ok true)

/-- The first include pattern of the trigger that matches the filename. -/
def firstMatchingInclude (tr : TriggerConfig) (fname : String) : Option String :=
  tr.Includes.find? (fun p => includeMatchB p fname)

/-- The files of the change set matched by a trigger. -/
def matchedFiles (tr : TriggerConfig) (files : List String) : List String :=
  files.filter (fun f => decide (matchTrigger tr f = .ok true))

/-- The command lines of the eligible triggers with a nonempty match set, in
config declaration order: what a run prints (dry run) or spawns (live). -/
def planOf (triggers : List TriggerConfig) (enabled : String → Bool) (files : List String) :
    List (String × List String) :=
  (triggers.filter (fun tr => enabled tr.Name && !(matchedFiles tr files).isEmpty)).map
    (fun tr => (tr.Name, tr.Cmd ++ matchedFiles tr files))

/-- Whether a chunk is syntactically well formed, read off from matching it
against the empty string (the trial the validation loop performs). -/
def chunkOk (c : List Char) : Bool := exceptOk (matchChunk c [])

/-- The eligibility predicate `runPreflight` derives from the requested names:
everything when the request is empty, else exactly the requested names. -/
def eligibleOf (cfg : PreflightConfig) (req : List String) : String → Bool :=
  fun n => (if req.isEmpty then cfg.Triggers.map (fun t => t.Name) else req).contains n

/-- Violations of the pattern checks of `validateTrigger`, in pattern order. -/
def patViolations (bad : String → VError) (pats : List String) : List VError :=
  (pats.filter (fun p => !patternOk p)).map bad

/-- Violations of one trigger in the order `validateTrigger` checks them:
empty name, whitespace name, input type, include patterns, exclude patterns. -/
def triggerViolations (tr : TriggerConfig) : List VError :=
  (if tr.Name = "" then [VError.emptyName]
   else if containsWhitespace tr.Name then [VError.whitespaceName tr.Name] else [])
  ++ (if tr.InputType ≠ "args" then [VError.invalidInputType tr.InputType tr.Name] else [])
  ++ patViolations (fun p => VError.invalidIncludePat p tr.Name) tr.Includes
  ++ patViolations (fun p => VError.invalidExcludePat p tr.Name) tr.Excludes

/-- All violations of a config in the order `validateConfig` checks them: per
trigger in declaration order, duplicate name first, then the trigger's own
violations. -/
def configViolations : List String → List TriggerConfig → List VError
  | _, [] => []
  | seen, t :: rest =>
    (if t.Name ∈ seen then [VError.duplicateName t.Name] else [])
      ++ triggerViolations t ++ configViolations (t.Name :: seen) rest

/-- Modelled from the words of claim C2: an exclude evaluation in which each
exclude pattern chooses its own candidate name (basename when the exclude has
no path separator, full path otherwise).  This is the rule the claim asserts;
it is compared against the source's `matchExcludes`, which reuses the include
pattern's candidate. -/
def matchExcludesOwnRule : List String → String → Except Unit Bool
  | [], _ => .ok false
  | pat :: rest, fname =>
    let matchName := if containsSlash pat then fname else pathBase fname
    match pathMatch pat matchName with
    | .error _ => .error ()
    | .ok true => .ok true
    | .ok false => matchExcludesOwnRule rest fname

/-- The include loop rewired to the claim-C2 exclude rule. -/
def matchIncludesOwn (excludes : List String) (fname : String) : List String → Except Unit Bool
  | [] => .ok false
  | pat :: rest =>
    let matchName := if containsSlash pat then fname else pathBase fname
    match pathMatch pat matchName with
    | .error _ => .error ()
    | .ok false => matchIncludesOwn excludes fname rest
    | .ok true =>
      match matchExcludesOwnRule excludes fname with
      | .error _ => .error ()
      | .ok true => .ok false
      | .ok false => .ok true

/-- The matcher claim C2 describes: include-then-exclude, with excludes
evaluated under their own basename-vs-fullpath rule. -/
def matchTriggerOwnRule (tr : TriggerConfig) (fname : String) : Except Unit Bool :=
  matchIncludesOwn tr.Excludes fname tr.Includes

/-! # Lemmas: chunk scanning -/

theorem scanChunkLoop_lengths (i : Bool) (p : List Char) :
    (scanChunkLoop i p).1.length + (scanChunkLoop i p).2.length = p.length := by
  induction i, p using scanChunkLoop.induct with
  | case1 => simp [scanChunkLoop]
  | case2 => rw [scanChunkLoop.eq_def]; simp
  | case3 inr d rest2 ih => rw [scanChunkLoop.eq_def]; simp; omega
  | case4 rest h ih => rw [scanChunkLoop.eq_def]; simp_all; omega
  | case5 inr rest h1 h2 => rw [scanChunkLoop.eq_def]; simp_all
  | case6 inr c rest h1 h2 ih => rw [scanChunkLoop.eq_def]; simp_all; omega

theorem scanChunkLoop_chunk_ne (i : Bool) (c : Char) (rest : List Char) (hc : c ≠ '*') :
    (scanChunkLoop i (c :: rest)).1 ≠ [] := by
  rw [scanChunkLoop.eq_def]
  by_cases hb : c = '\\'
  · subst hb
    cases rest <;> simp
  · simp [hb, hc]

theorem dropStars_self (p : List Char) (h : leadingStar p = false) : dropStars p = p := by
  cases p with
  | nil => simp [dropStars]
  | cons c rest =>
    simp [leadingStar] at h
    simp [dropStars, h]

theorem dropStars_length_lt (p : List Char) (h : leadingStar p = true) :
    (dropStars p).length < p.length := by
  induction p with
  | nil => simp [leadingStar] at h
  | cons c rest ih =>
    simp [leadingStar] at h
    rw [dropStars, if_pos h]
    rcases hr : leadingStar rest with _ | _
    · rw [dropStars_self rest hr]; simp
    · exact Nat.lt_trans (ih hr) (by simp)

theorem dropStars_head_ne : ∀ (p : List Char) (c : Char) (rest : List Char),
    dropStars p = c :: rest → c ≠ '*' := by
  intro p
  induction p with
  | nil => intro c rest h; simp [dropStars] at h
  | cons a tl ih =>
    intro c rest h
    rw [dropStars.eq_def] at h
    simp only at h
    split at h
    · exact ih c rest h
    · next hne => cases h; simpa using hne

theorem scanChunk_rest_length (p : List Char) (hp : p ≠ []) :
    (scanChunk p).2.2.length < p.length := by
  unfold scanChunk
  simp only
  have hlen := scanChunkLoop_lengths false (dropStars p)
  rcases hs : leadingStar p with _ | _
  · rw [dropStars_self p hs] at hlen
    have hchunk : (scanChunkLoop false (dropStars p)).1 ≠ [] := by
      rcases hq : dropStars p with _ | ⟨c, rest⟩
      · rw [dropStars_self p hs] at hq; exact absurd hq hp
      · exact hq ▸ scanChunkLoop_chunk_ne false c rest (dropStars_head_ne p c rest hq)
    rw [dropStars_self p hs] at hchunk ⊢
    have : 0 < (scanChunkLoop false p).1.length := List.length_pos.2 hchunk
    omega
  · have := dropStars_length_lt p hs
    omega

theorem scanChunk_chunk_nil_rest (p : List Char) (h : (scanChunk p).2.1 = []) :
    (scanChunk p).2.2 = [] := by
  unfold scanChunk at h ⊢
  simp only at h ⊢
  rcases hq : dropStars p with _ | ⟨c, rest⟩
  · simp [hq, scanChunkLoop]
  · rw [hq] at h
    exact absurd h (scanChunkLoop_chunk_ne false c rest (dropStars_head_ne p c rest hq))

/-! # Lemmas: range parsing -/

theorem getEsc_length {c : List Char} {r : Char} {rest : List Char}
    (h : getEsc c = .ok (r, rest)) : rest.length < c.length := by
  rw [getEsc.eq_def] at h
  split at h
  · simp at h
  · split at h
    · simp at h
    · split at h
      · split at h
        · simp at h
        · split at h
          · simp at h
          · simp at h
            obtain ⟨-, h2⟩ := h
            subst h2
            simp
            omega
      · split at h
        · simp at h
        · simp at h
          obtain ⟨-, h2⟩ := h
          subst h2
          simp

/-- Case split on two `Except` values with equal `Prod.snd` images. -/
theorem exceptMapSnd_cases {x y : Except Unit (Bool × List Char)}
    (h : x.map Prod.snd = y.map Prod.snd) :
    (x = .error () ∧ y = .error ()) ∨
      ∃ m₁ m₂ rest, x = .ok (m₁, rest) ∧ y = .ok (m₂, rest) := by
  match x, y with
  | .error (), .error () => exact Or.inl ⟨rfl, rfl⟩
  | .error (), .ok b => simp [Except.map] at h
  | .ok a, .error () => simp [Except.map] at h
  | .ok (m₁, r₁), .ok (m₂, r₂) =>
    simp [Except.map] at h
    exact Or.inr ⟨m₁, m₂, r₁, h ▸ ⟨rfl, rfl⟩⟩

theorem parseRangesF_zero (r : Char) (c : List Char) (m n : Bool) :
    parseRangesF 0 r c m n = .error () := rfl

theorem parseRangesF_succ (fuel : Nat) (r : Char) (chunk : List Char) (matched nrangePos : Bool) :
    parseRangesF (fuel+1) r chunk matched nrangePos =
      if nrangePos ∧ chunk.head? = some ']' then .ok (matched, chunk.tail)
      else
        match getEsc chunk with
        | .error e => .error e
        | .ok (lo, chunk1) =>
          if chunk1.head? = some '-' then
            match getEsc chunk1.tail with
            | .error e => .error e
            | .ok (hi, chunk3) => parseRangesF fuel r chunk3 (matched || (lo ≤ r && r ≤ hi)) true
          else parseRangesF fuel r chunk1 (matched || (lo ≤ r && r ≤ lo)) true := rfl

theorem parseRangesF_length : ∀ {fuel : Nat} {r : Char} {c : List Char} {m n b : Bool}
    {rest : List Char}, parseRangesF fuel r c m n = .ok (b, rest) → rest.length < c.length := by
  intro fuel
  induction fuel with
  | zero => intro r c m n b rest h; simp [parseRangesF_zero] at h
  | succ fuel ih =>
    intro r c m n b rest h
    rw [parseRangesF_succ] at h
    split at h
    · next hbr =>
      rcases c with _ | ⟨a, tl⟩
      · simp at hbr
      · simp at h
        obtain ⟨-, h2⟩ := h
        simp [h2.symm]
    · rcases hg : getEsc c with e | ⟨lo, c1⟩
      · rw [hg] at h; simp at h
      · rw [hg] at h
        simp only at h
        have hc1 := getEsc_length hg
        split at h
        · rcases hg2 : getEsc c1.tail with e | ⟨hi, c3⟩
          · rw [hg2] at h; simp at h
          · rw [hg2] at h
            simp only at h
            have hc3 := getEsc_length hg2
            have htl : c1.tail.length ≤ c1.length := by
              cases c1 <;> simp
            have := ih h
            omega
        · have := ih h
          omega

theorem parseRangesF_indep : ∀ (fuel : Nat) (r₁ r₂ : Char) (c : List Char) (m₁ m₂ n : Bool),
    (parseRangesF fuel r₁ c m₁ n).map Prod.snd = (parseRangesF fuel r₂ c m₂ n).map Prod.snd := by
  intro fuel
  induction fuel with
  | zero => intro r₁ r₂ c m₁ m₂ n; simp [parseRangesF_zero]
  | succ fuel ih =>
    intro r₁ r₂ c m₁ m₂ n
    rw [parseRangesF_succ, parseRangesF_succ]
    split
    · simp [Except.map]
    · rcases hg : getEsc c with e | ⟨lo, c1⟩
      · simp [Except.map]
      · simp only
        split
        · rcases hg2 : getEsc c1.tail with e | ⟨hi, c3⟩
          · simp [Except.map]
          · exact ih r₁ r₂ c3 _ _ true
        · exact ih r₁ r₂ c1 _ _ true

theorem parseRanges_length {r : Char} {c : List Char} {m n b : Bool} {rest : List Char}
    (h : parseRanges r c m n = .ok (b, rest)) : rest.length < c.length :=
  parseRangesF_length h

theorem parseRanges_indep (r₁ r₂ : Char) (c : List Char) (m₁ m₂ n : Bool) :
    (parseRanges r₁ c m₁ n).map Prod.snd = (parseRanges r₂ c m₂ n).map Prod.snd :=
  parseRangesF_indep _ r₁ r₂ c m₁ m₂ n

/-! # Lemmas: chunk matching errors do not depend on the candidate name -/

theorem matchChunkLoopF_zero (c s : List Char) (b : Bool) :
    matchChunkLoopF 0 c s b = .error () := rfl

theorem matchChunkLoopF_succ (fuel : Nat) (chunk s : List Char) (failed0 : Bool) :
    matchChunkLoopF (fuel+1) chunk s failed0 =
      match chunk with
      | [] => if failed0 then .ok none else .ok (some s)
      | c :: chunkRest =>
        let failed := failed0 || s.isEmpty
        if c = '[' then
          let r := if failed then rune0 else s.headD rune0
          let s2 := if failed then s else s.tail
          let negated := decide (chunkRest.head? = some '^')
          let chunkA := if negated then chunkRest.tail else chunkRest
          match parseRanges r chunkA false false with
          | .error _ => .error ()
          | .ok (m, chunkB) =>
            matchChunkLoopF fuel chunkB s2 (if m = negated then true else failed)
        else if c = '?' then
          if failed then matchChunkLoopF fuel chunkRest s failed
          else matchChunkLoopF fuel chunkRest s.tail (decide (s.headD rune0 = '/'))
        else if c = '\\' then
          match chunkRest with
          | [] => .error ()
          | d :: chunkRest2 =>
            if failed then matchChunkLoopF fuel chunkRest2 s failed
            else matchChunkLoopF fuel chunkRest2 s.tail (decide (d ≠ s.headD rune0))
        else
          if failed then matchChunkLoopF fuel chunkRest s failed
          else matchChunkLoopF fuel chunkRest s.tail (decide (c ≠ s.headD rune0)) := rfl

theorem matchChunkLoopF_err_indep :
    ∀ (fuel : Nat) (c s₁ s₂ : List Char) (b₁ b₂ : Bool),
      exceptOk (matchChunkLoopF fuel c s₁ b₁) = exceptOk (matchChunkLoopF fuel c s₂ b₂) := by
  intro fuel
  induction fuel with
  | zero => intro c s₁ s₂ b₁ b₂; rfl
  | succ fuel ih =>
    intro c s₁ s₂ b₁ b₂
    rw [matchChunkLoopF_succ, matchChunkLoopF_succ]
    rcases c with _ | ⟨c, chunkRest⟩
    · simp only
      split <;> split <;> rfl
    · simp only
      by_cases h1 : c = '['
      · rw [if_pos h1, if_pos h1]
        rcases exceptMapSnd_cases (parseRanges_indep
            (if b₁ || s₁.isEmpty then rune0 else s₁.headD rune0)
            (if b₂ || s₂.isEmpty then rune0 else s₂.headD rune0)
            (if decide (chunkRest.head? = some '^') then chunkRest.tail else chunkRest)
            false false false) with
          ⟨he₁, he₂⟩ | ⟨m₁, m₂, restc, ho₁, ho₂⟩
        · rw [he₁, he₂]
        · rw [ho₁, ho₂]
          simp only
          exact ih _ _ _ _ _
      · rw [if_neg h1, if_neg h1]
        by_cases h2 : c = '?'
        · rw [if_pos h2, if_pos h2]
          split <;> split <;> exact ih _ _ _ _ _
        · rw [if_neg h2, if_neg h2]
          by_cases h3 : c = '\\'
          · rw [if_pos h3, if_pos h3]
            rcases chunkRest with _ | ⟨d, chunkRest2⟩
            · rfl
            · simp only
              split <;> split <;> exact ih _ _ _ _ _
          · rw [if_neg h3, if_neg h3]
            split <;> split <;> exact ih _ _ _ _ _

theorem matchChunk_err_indep (c s : List Char) : exceptOk (matchChunk c s) = chunkOk c :=
  matchChunkLoopF_err_indep (c.length + 1) c s [] false false

/-! # Lemmas: the star loop cannot fail on a well-formed chunk -/

theorem starLoop_ok (chunk : List Char) (re : Bool) (h : chunkOk chunk = true) :
    ∀ nm, exceptOk (starLoop chunk re nm) = true := by
  intro nm
  induction nm with
  | nil => rfl
  | cons c nm ih =>
    rw [starLoop.eq_def]
    simp only
    split
    · rfl
    · rcases hm : matchChunk chunk nm with e | o
      · have herr := matchChunk_err_indep chunk nm
        rw [hm, h] at herr
        simp [exceptOk] at herr
      · rcases o with _ | t
        · exact ih
        · simp only
          split
          · exact ih
          · rfl

/-! # Lemmas: the trailing validation loop -/

theorem scanChunk_rest_lt (p : List Char) (hp : p ≠ []) :
    (scanChunk p).2.2.length < p.length :=
  scanChunk_rest_length p hp

theorem validateRestF_zero (p : List Char) : validateRestF 0 p = .error () := rfl

theorem validateRestF_succ (fuel : Nat) (pat : List Char) :
    validateRestF (fuel+1) pat =
      match pat with
      | [] => .ok ()
      | _ :: _ =>
        let sc := scanChunk pat
        match matchChunk sc.2.1 [] with
        | .error _ => .error ()
        | .ok _ => validateRestF fuel sc.2.2 := rfl

theorem validateRestF_stable :
    ∀ (f₁ f₂ : Nat) (p : List Char), p.length < f₁ → p.length < f₂ →
      validateRestF f₁ p = validateRestF f₂ p := by
  intro f₁
  induction f₁ with
  | zero => intro f₂ p h₁ h₂; omega
  | succ f₁ ih =>
    intro f₂ p h₁ h₂
    rcases f₂ with _ | f₂
    · omega
    · rw [validateRestF_succ, validateRestF_succ]
      rcases p with _ | ⟨a, tl⟩
      · rfl
      · simp only
        split
        · rfl
        · have hlt := scanChunk_rest_lt (a :: tl) (by simp)
          simp only [List.length_cons] at h₁ h₂ hlt
          exact ih f₂ _ (by omega) (by omega)

theorem validateRest_cons (p : List Char) (hp : p ≠ []) :
    validateRest p =
      match matchChunk (scanChunk p).2.1 [] with
      | .error _ => .error ()
      | .ok _ => validateRest (scanChunk p).2.2 := by
  unfold validateRest
  rcases p with _ | ⟨a, tl⟩
  · exact absurd rfl hp
  · rw [validateRestF_succ]
    simp only
    split
    · rfl
    · have hlt := scanChunk_rest_lt (a :: tl) (by simp)
      exact validateRestF_stable _ _ _ (by omega) (by omega)

theorem validateRest_ok_iff (p : List Char) (hp : p ≠ []) :
    exceptOk (validateRest p) =
      (chunkOk (scanChunk p).2.1 && exceptOk (validateRest (scanChunk p).2.2)) := by
  rw [validateRest_cons p hp]
  unfold chunkOk
  rcases hm : matchChunk (scanChunk p).2.1 [] with e | o
  · rfl
  · simp [exceptOk]

/-! # Lemmas: pattern errors of `path.Match` do not depend on the name -/

theorem goFall_cases (star : Bool) (chunk rest name : List Char) (hok : chunkOk chunk = true) :
    (goFall star chunk rest name = .error () ∧ exceptOk (validateRest rest) = false) ∨
    (∃ t, goFall star chunk rest name = .ok (some t)) ∨
    (goFall star chunk rest name = .ok none ∧ exceptOk (validateRest rest) = true) := by
  unfold goFall
  cases star
  · rcases hv : validateRest rest with e | u
    · refine Or.inl ⟨?_, ?_⟩ <;> simp [hv, exceptOk]
    · refine Or.inr (Or.inr ⟨?_, ?_⟩) <;> simp [hv, exceptOk]
  · have hsl := starLoop_ok chunk rest.isEmpty hok name
    rcases hs : starLoop chunk rest.isEmpty name with e | o
    · rw [hs] at hsl
      simp [exceptOk] at hsl
    · rcases o with _ | t
      · rcases hv : validateRest rest with e | u
        · refine Or.inl ⟨?_, ?_⟩ <;> simp [hs, hv, exceptOk]
        · refine Or.inr (Or.inr ⟨?_, ?_⟩) <;> simp [hs, hv, exceptOk]
      · exact Or.inr (Or.inl ⟨t, by simp [hs]⟩)

theorem goMatchF_zero (p n : List Char) : goMatchF 0 p n = .error () := rfl

theorem goMatchF_succ (fuel : Nat) (pat name : List Char) :
    goMatchF (fuel+1) pat name =
      match pat with
      | [] => .ok name.isEmpty
      | _ :: _ =>
        let sc := scanChunk pat
        if sc.1 && sc.2.1.isEmpty then .ok (!name.contains '/')
        else
          let step : Except Unit (Option (List Char)) :=
            match matchChunk sc.2.1 name with
            | .error _ => .error ()
            | .ok (some t) =>
              if t.isEmpty || !sc.2.2.isEmpty then .ok (some t)
              else goFall sc.1 sc.2.1 sc.2.2 name
            | .ok none => goFall sc.1 sc.2.1 sc.2.2 name
          match step with
          | .error _ => .error ()
          | .ok (some t) => goMatchF fuel sc.2.2 t
          | .ok none => .ok false := rfl

theorem goMatchF_err : ∀ (fuel : Nat) (p n : List Char), p.length < fuel →
    exceptOk (goMatchF fuel p n) = exceptOk (validateRest p) := by
  intro fuel
  induction fuel with
  | zero => intro p n h; omega
  | succ fuel ih =>
    intro p n hlen
    rw [goMatchF_succ]
    rcases p with _ | ⟨a, tl⟩
    · rfl
    · simp only
      rw [validateRest_ok_iff (a :: tl) (by simp)]
      have hrestlt : (scanChunk (a :: tl)).2.2.length < fuel := by
        have := scanChunk_rest_lt (a :: tl) (by simp)
        simp only [List.length_cons] at this hlen
        omega
      by_cases hts : ((scanChunk (a :: tl)).1 && (scanChunk (a :: tl)).2.1.isEmpty) = true
      · rw [if_pos hts]
        have hch : (scanChunk (a :: tl)).2.1 = [] := by
          simp only [Bool.and_eq_true] at hts
          rcases hts with ⟨-, h2⟩
          simpa using h2
        have hrest := scanChunk_chunk_nil_rest _ hch
        rw [hch, hrest]
        simp [exceptOk]
        decide
      · rw [if_neg hts]
        rcases hm : matchChunk (scanChunk (a :: tl)).2.1 n with e | o
        · have hco := matchChunk_err_indep (scanChunk (a :: tl)).2.1 n
          rw [hm] at hco
          rw [← hco]
          rfl
        · have hco := matchChunk_err_indep (scanChunk (a :: tl)).2.1 n
          rw [hm] at hco
          rw [← hco]
          simp only [exceptOk_ok, Bool.true_and]
          rcases o with _ | t
          · rcases goFall_cases (scanChunk (a :: tl)).1 _ _ n hco.symm with
              ⟨hf, hval⟩ | ⟨t', hf⟩ | ⟨hf, hval⟩
            · rw [hf, hval]
              rfl
            · rw [hf]
              simp only
              exact ih _ t' hrestlt
            · rw [hf, hval]
              rfl
          · simp only
            by_cases hcond : (t.isEmpty || !(scanChunk (a :: tl)).2.2.isEmpty) = true
            · rw [if_pos hcond]
              simp only
              exact ih _ t hrestlt
            · rw [if_neg hcond]
              rcases goFall_cases (scanChunk (a :: tl)).1 _ _ n hco.symm with
                ⟨hf, hval⟩ | ⟨t', hf⟩ | ⟨hf, hval⟩
              · rw [hf, hval]
                rfl
              · rw [hf]
                simp only
                exact ih _ t' hrestlt
              · rw [hf, hval]
                rfl

theorem goMatch_err_eq (p n : List Char) :
    exceptOk (goMatch p n) = exceptOk (validateRest p) :=
  goMatchF_err _ p n (by omega)

/-- Whether `path.Match` reports `ErrBadPattern` depends only on the pattern,
never on the name: the trial match against `""` performed by validation
detects exactly the patterns that can fail during real matching. -/
theorem pathMatch_ok_eq (pat name : String) :
    exceptOk (pathMatch pat name) = patternOk pat := by
  simp only [patternOk, pathMatch]
  rw [goMatch_err_eq, goMatch_err_eq]

theorem pathMatch_ok_cases (pat name : String) (h : patternOk pat = true) :
    pathMatch pat name = .ok true ∨ pathMatch pat name = .ok false := by
  have hx := pathMatch_ok_eq pat name
  rw [h] at hx
  rcases exceptOk_eq_true hx with ⟨b, hb⟩
  cases b
  · exact Or.inr hb
  · exact Or.inl hb

/-! # Lemmas: the trigger matcher -/

theorem matchExcludes_eq (excl : List String) (mn : String)
    (h : ∀ p ∈ excl, patternOk p = true) :
    matchExcludes excl mn = .ok (excl.any (fun p => decide (pathMatch p mn = .ok true))) := by
  induction excl with
  | nil => rfl
  | cons p rest ih =>
    simp only [matchExcludes]
    rcases pathMatch_ok_cases p mn (h p (by simp)) with hp | hp
    · rw [hp]
      simp [hp]
    · rw [hp]
      rw [ih (fun q hq => h q (by simp [hq]))]
      simp [hp]

theorem matchIncludes_eq (excl : List String) (fname : String) :
    ∀ (incl : List String), (∀ p ∈ incl, patternOk p = true) →
      (∀ p ∈ excl, patternOk p = true) →
      matchIncludes excl fname incl =
        .ok (match incl.find? (fun p => includeMatchB p fname) with
             | none => false
             | some pat =>
               !excl.any (fun e =>
                 decide (pathMatch e (includeCandidate pat fname) = .ok true))) := by
  intro incl
  induction incl with
  | nil => intro h1 h2; rfl
  | cons p rest ih =>
    intro h1 h2
    simp only [matchIncludes]
    have hcand : (if containsSlash p then fname else pathBase fname) = includeCandidate p fname :=
      rfl
    rw [hcand]
    rcases pathMatch_ok_cases p (includeCandidate p fname) (h1 p (by simp)) with hp | hp
    · rw [hp]
      have hfind : (p :: rest).find? (fun q => includeMatchB q fname) = some p := by
        rw [List.find?_cons]
        simp [includeMatchB, hp]
      rw [hfind]
      rw [matchExcludes_eq excl (includeCandidate p fname) h2]
      rcases hany : excl.any (fun e =>
          decide (pathMatch e (includeCandidate p fname) = .ok true)) with _ | _
      · simp [hany]
      · simp [hany]
    · rw [hp]
      have hfind : (p :: rest).find? (fun q => includeMatchB q fname)
          = rest.find? (fun q => includeMatchB q fname) := by
        rw [List.find?_cons]
        simp [includeMatchB, hp]
      rw [hfind]
      exact ih (fun q hq => h1 q (by simp [hq])) h2

theorem matchIncludes_none (fname : String) :
    ∀ (incl : List String), (∀ p ∈ incl, patternOk p = true) →
      incl.find? (fun p => includeMatchB p fname) = none →
      ∀ excl : List String, matchIncludes excl fname incl = .ok false := by
  intro incl
  induction incl with
  | nil => intro h1 hf excl; rfl
  | cons p rest ih =>
    intro h1 hf excl
    rw [List.find?_cons] at hf
    rcases hB : includeMatchB p fname with _ | _
    · rw [hB] at hf
      simp only at hf
      simp only [matchIncludes]
      have hcand : (if containsSlash p then fname else pathBase fname) = includeCandidate p fname :=
        rfl
      rw [hcand]
      rcases pathMatch_ok_cases p (includeCandidate p fname) (h1 p (by simp)) with hp | hp
      · simp [includeMatchB, hp] at hB
      · rw [hp]
        exact ih (fun q hq => h1 q (by simp [hq])) hf excl
    · rw [hB] at hf
      simp at hf

theorem matchTrigger_ok (tr : TriggerConfig) (fname : String)
    (hi : ∀ p ∈ tr.Includes, patternOk p = true)
    (he : ∀ p ∈ tr.Excludes, patternOk p = true) :
    exceptOk (matchTrigger tr fname) = true := by
  unfold matchTrigger
  rw [matchIncludes_eq tr.Excludes fname tr.Includes hi he]
  rfl

/-! # Lemmas: validation -/

theorem validatePats_eq (bad : String → VError) (l : List String) :
    validatePats bad l =
      match (patViolations bad l).head? with
      | none => .ok ()
      | some e => .error e := by
  induction l with
  | nil => rfl
  | cons p rest ih =>
    simp only [validatePats, patViolations, List.filter_cons]
    rcases hp : patternOk p with _ | _
    · simp [hp]
    · simp only [hp]
      rw [ih]
      simp [patViolations]

theorem validatePats_ok (bad : String → VError) :
    ∀ (l : List String), validatePats bad l = .ok () → ∀ p ∈ l, patternOk p = true := by
  intro l
  induction l with
  | nil => intro h p hp; simp at hp
  | cons q rest ih =>
    intro h p hp
    simp only [validatePats] at h
    rcases hq : patternOk q with _ | _
    · rw [hq] at h
      simp at h
    · rw [hq] at h
      simp only [if_pos rfl] at h
      rcases List.mem_cons.mp hp with hp2 | hp2
      · exact hp2 ▸ hq
      · exact ih h p hp2

theorem validateTrigger_eq (tr : TriggerConfig) :
    validateTrigger tr =
      match (triggerViolations tr).head? with
      | none => .ok ()
      | some e => .error e := by
  unfold validateTrigger triggerViolations
  by_cases h1 : tr.Name = ""
  · simp [h1]
  · rw [if_neg h1]
    by_cases h2 : containsWhitespace tr.Name = true
    · simp [h1, h2]
    · rw [if_neg h2]
      simp only [h1, if_neg, h2, if_false, Bool.not_eq_true]
      by_cases h3 : tr.InputType ≠ "args"
      · simp [h1, h2, h3]
      · rw [if_neg h3]
        simp only [h3, if_neg, h2]
        rw [validatePats_eq, validatePats_eq]
        rcases hin : (patViolations (fun p => VError.invalidIncludePat p tr.Name)
            tr.Includes).head? with _ | e
        · rcases hex : (patViolations (fun p => VError.invalidExcludePat p tr.Name)
              tr.Excludes).head? with _ | e
          · simp_all [List.head?_eq_none_iff]
          · simp_all [List.head?_eq_none_iff]
        · have hne : patViolations (fun p => VError.invalidIncludePat p tr.Name)
              tr.Includes ≠ [] := by
            intro hnil
            rw [hnil] at hin
            simp at hin
          rcases hl : patViolations (fun p => VError.invalidIncludePat p tr.Name)
              tr.Includes with _ | ⟨v, vs⟩
          · exact absurd hl hne
          · rw [hl] at hin
            simp at hin
            simp [h1, h2, h3, hl, hin]

theorem validateTrigger_parts (tr : TriggerConfig) (h : validateTrigger tr = .ok ()) :
    tr.InputType = "args" ∧ (∀ p ∈ tr.Includes, patternOk p = true) ∧
      (∀ p ∈ tr.Excludes, patternOk p = true) := by
  unfold validateTrigger at h
  split at h
  · simp at h
  · split at h
    · simp at h
    · split at h
      · simp at h
      · next h3 =>
        rcases hin : validatePats (fun p => VError.invalidIncludePat p tr.Name) tr.Includes with
          e | u
        · rw [hin] at h
          simp at h
        · rw [hin] at h
          refine ⟨by simpa using h3, validatePats_ok _ _ hin, validatePats_ok _ _ h⟩

theorem validateConfigLoop_eq :
    ∀ (l : List TriggerConfig) (seen : List String),
      validateConfigLoop seen l =
        match (configViolations seen l).head? with
        | none => .ok ()
        | some e => .error e := by
  intro l
  induction l with
  | nil => intro seen; rfl
  | cons t rest ih =>
    intro seen
    simp only [validateConfigLoop, configViolations]
    by_cases hdup : t.Name ∈ seen
    · simp [hdup]
    · rw [if_neg hdup, if_neg hdup]
      simp only [List.nil_append]
      rw [validateTrigger_eq]
      rcases ht : (triggerViolations t).head? with _ | e
      · have hnil : triggerViolations t = [] := by
          simpa [List.head?_eq_none_iff] using ht
        rw [hnil]
        simp only [List.nil_append]
        exact ih (t.Name :: seen)
      · rcases hl : triggerViolations t with _ | ⟨v, vs⟩
        · rw [hl] at ht
          simp at ht
        · rw [hl] at ht
          simp at ht
          simp [ht]

theorem validateConfigLoop_all :
    ∀ (l : List TriggerConfig) (seen : List String),
      validateConfigLoop seen l = .ok () → ∀ t ∈ l, validateTrigger t = .ok () := by
  intro l
  induction l with
  | nil => intro seen h t ht; simp at ht
  | cons u rest ih =>
    intro seen h t ht
    simp only [validateConfigLoop] at h
    split at h
    · simp at h
    · rcases hu : validateTrigger u with e | v
      · rw [hu] at h
        simp at h
      · rw [hu] at h
        rcases List.mem_cons.mp ht with ht2 | ht2
        · exact ht2 ▸ hu
        · exact ih (u.Name :: seen) h t ht2

theorem validateConfig_all (cfg : PreflightConfig) (h : validateConfig cfg = .ok ()) :
    ∀ t ∈ cfg.Triggers, validateTrigger t = .ok () :=
  validateConfigLoop_all cfg.Triggers [] h

/-! # Lemmas: change-set aggregation -/

theorem insertSet_nodup (l : List String) (s : String) (h : l.Nodup) :
    (insertSet l s).Nodup := by
  unfold insertSet
  split
  · exact h
  · next hmem => simp [List.nodup_append, h, hmem]

theorem mem_insertSet (l : List String) (s a : String) :
    a ∈ insertSet l s ↔ a ∈ l ∨ a = s := by
  unfold insertSet
  split
  · next hmem =>
    constructor
    · exact Or.inl
    · rintro (h | h)
      · exact h
      · exact h ▸ hmem
  · simp

theorem foldl_insertSet_nodup (fs : List String) :
    ∀ (l : List String), l.Nodup → (fs.foldl insertSet l).Nodup := by
  induction fs with
  | nil => intro l h; exact h
  | cons f rest ih => intro l h; exact ih _ (insertSet_nodup l f h)

theorem mem_foldl_insertSet (fs : List String) :
    ∀ (l : List String) (a : String), a ∈ fs.foldl insertSet l ↔ a ∈ l ∨ a ∈ fs := by
  induction fs with
  | nil => intro l a; simp
  | cons f rest ih =>
    intro l a
    rw [List.foldl_cons, ih, mem_insertSet]
    simp [List.mem_cons]
    tauto

theorem setUnion_go_nodup :
    ∀ (srcs : List (List String)) (acc : List String), acc.Nodup →
      (srcs.foldl (fun acc fs => fs.foldl insertSet acc) acc).Nodup := by
  intro srcs
  induction srcs with
  | nil => intro acc h; exact h
  | cons fs rest ih => intro acc h; exact ih _ (foldl_insertSet_nodup fs acc h)

theorem mem_setUnion_go :
    ∀ (srcs : List (List String)) (acc : List String) (a : String),
      a ∈ srcs.foldl (fun acc fs => fs.foldl insertSet acc) acc ↔
        a ∈ acc ∨ ∃ l ∈ srcs, a ∈ l := by
  intro srcs
  induction srcs with
  | nil => intro acc a; simp
  | cons fs rest ih =>
    intro acc a
    rw [List.foldl_cons, ih, mem_foldl_insertSet]
    simp
    tauto

theorem setUnion_nodup (srcs : List (List String)) : (setUnion srcs).Nodup :=
  setUnion_go_nodup srcs [] (by simp)

theorem mem_setUnion (srcs : List (List String)) (a : String) :
    a ∈ setUnion srcs ↔ ∃ l ∈ srcs, a ∈ l := by
  unfold setUnion
  rw [mem_setUnion_go]
  simp

theorem charListLe_total : ∀ (as bs : List Char), charListLe as bs = true ∨ charListLe bs as = true := by
  intro as
  induction as with
  | nil => intro bs; exact Or.inl rfl
  | cons a as ih =>
    intro bs
    rcases bs with _ | ⟨b, bs⟩
    · exact Or.inr rfl
    · simp only [charListLe]
      rcases lt_trichotomy a b with hab | hab | hab
      · left
        rw [if_pos hab]
      · subst hab
        rcases ih bs with h | h
        · left
          rw [if_neg (lt_irrefl a), if_neg (lt_irrefl a)]
          exact h
        · right
          rw [if_neg (lt_irrefl a), if_neg (lt_irrefl a)]
          exact h
      · right
        rw [if_pos hab]

theorem charListLe_trans : ∀ (as bs cs : List Char), charListLe as bs = true →
    charListLe bs cs = true → charListLe as cs = true := by
  intro as
  induction as with
  | nil => intro bs cs h1 h2; rfl
  | cons a as ih =>
    intro bs cs h1 h2
    rcases bs with _ | ⟨b, bs⟩
    · simp [charListLe] at h1
    · rcases cs with _ | ⟨c, cs⟩
      · simp [charListLe] at h2
      · simp only [charListLe] at h1 h2 ⊢
        by_cases hab : a < b
        · by_cases hbc : b < c
          · rw [if_pos (lt_trans hab hbc)]
          · by_cases hcb : c < b
            · rw [if_neg hbc, if_pos hcb] at h2
              simp at h2
            · have hbceq : b = c := le_antisymm (le_of_not_lt hcb) (le_of_not_lt hbc)
              subst hbceq
              rw [if_pos hab]
        · by_cases hba : b < a
          · rw [if_neg hab, if_pos hba] at h1
            simp at h1
          · have habeq : a = b := le_antisymm (le_of_not_lt hba) (le_of_not_lt hab)
            subst habeq
            rw [if_neg (lt_irrefl a), if_neg (lt_irrefl a)] at h1
            by_cases hac : a < c
            · rw [if_pos hac]
            · by_cases hca : c < a
              · rw [if_neg hac, if_pos hca] at h2
                simp at h2
              · rw [if_neg hac, if_neg hca] at h2 ⊢
                exact ih bs cs h1 h2

theorem sortStrings_sorted (l : List String) :
    (sortStrings l).Sorted (fun a b => strLe a b = true) :=
  @List.sorted_insertionSort String (fun a b => strLe a b = true) _
    ⟨fun a b => charListLe_total a.data b.data⟩
    ⟨fun a b c => charListLe_trans a.data b.data c.data⟩ l

theorem sortStrings_perm (l : List String) : (sortStrings l).Perm l :=
  List.perm_insertionSort _ l

theorem sortStrings_count (l : List String) (a : String) :
    (sortStrings l).count a = l.count a :=
  (sortStrings_perm l).count_eq a

/-! # Lemmas: trigger orchestration -/

theorem filterMatched_eq (tr : TriggerConfig)
    (hok : ∀ f, exceptOk (matchTrigger tr f) = true) :
    ∀ files, filterMatched tr files = .ok (matchedFiles tr files) := by
  intro files
  induction files with
  | nil => rfl
  | cons f rest ih =>
    simp only [filterMatched]
    rcases exceptOk_eq_true (hok f) with ⟨b, hb⟩
    rw [hb]
    cases b
    · simp only
      rw [ih]
      unfold matchedFiles
      rw [List.filter_cons]
      simp [hb]
    · simp only
      rw [ih]
      unfold matchedFiles
      rw [List.filter_cons]
      simp [hb]

theorem processTrigger_eq (tr : TriggerConfig) (files : List String) (dryRun : Bool)
    (exec : List String → Bool) (st : RunState)
    (hv : validateTrigger tr = .ok ()) :
    processTrigger tr files dryRun exec st =
      .ok (if (matchedFiles tr files).isEmpty then st
           else if dryRun then
             ⟨st.dryRunLines ++ [(tr.Name, tr.Cmd ++ matchedFiles tr files)],
              st.executed, st.hasError⟩
           else
             ⟨st.dryRunLines,
              st.executed ++ [(tr.Name, tr.Cmd ++ matchedFiles tr files)],
              st.hasError || !exec (tr.Cmd ++ matchedFiles tr files)⟩) := by
  obtain ⟨hit, hinc, hexc⟩ := validateTrigger_parts tr hv
  unfold processTrigger
  rw [filterMatched_eq tr (fun f => matchTrigger_ok tr f hinc hexc) files]
  simp only [hit, if_pos]
  split
  · rfl
  · split <;> rfl

theorem planOf_nil (enabled : String → Bool) (files : List String) :
    planOf [] enabled files = [] := rfl

theorem planOf_cons (tr : TriggerConfig) (rest : List TriggerConfig)
    (enabled : String → Bool) (files : List String) :
    planOf (tr :: rest) enabled files =
      (if enabled tr.Name && !(matchedFiles tr files).isEmpty
       then [(tr.Name, tr.Cmd ++ matchedFiles tr files)] else [])
        ++ planOf rest enabled files := by
  unfold planOf
  rw [List.filter_cons]
  split <;> simp

theorem runLoop_char (enabled : String → Bool) (files : List String) (dryRun : Bool)
    (exec : List String → Bool) :
    ∀ (triggers : List TriggerConfig) (st : RunState),
      (∀ tr ∈ triggers, validateTrigger tr = .ok ()) →
      runLoop enabled files dryRun exec triggers st =
        .ok ⟨st.dryRunLines ++ (if dryRun then planOf triggers enabled files else []),
             st.executed ++ (if dryRun then [] else planOf triggers enabled files),
             st.hasError ||
               (!dryRun && (planOf triggers enabled files).any (fun e => !exec e.2))⟩ := by
  intro triggers
  induction triggers with
  | nil =>
    intro st h
    simp [runLoop, planOf]
  | cons tr rest ih =>
    intro st h
    simp only [runLoop]
    rw [planOf_cons]
    by_cases hen : enabled tr.Name = true
    · rw [if_pos hen]
      rw [processTrigger_eq tr files dryRun exec st (h tr (by simp))]
      simp only
      rw [ih _ (fun u hu => h u (by simp [hu]))]
      by_cases hem : (matchedFiles tr files).isEmpty = true
      · rw [if_pos hem]
        simp [hen, hem]
      · rw [if_neg hem]
        rcases hd : dryRun with _ | _
        · simp only [Bool.false_eq_true, if_false]
          simp [hen, hem, List.any_cons, Bool.or_assoc]
        · simp only [if_true]
          simp [hen, hem]
    · rw [if_neg hen]
      rw [ih _ (fun u hu => h u (by simp [hu]))]
      have hen' : enabled tr.Name = false := by
        rcases henv : enabled tr.Name with _ | _
        · rfl
        · exact absurd henv hen
      simp [hen']

theorem runLoop_congr (e₁ e₂ : String → Bool) (files : List String) (dryRun : Bool)
    (exec : List String → Bool) :
    ∀ (triggers : List TriggerConfig) (st : RunState),
      (∀ tr ∈ triggers, e₁ tr.Name = e₂ tr.Name) →
      runLoop e₁ files dryRun exec triggers st = runLoop e₂ files dryRun exec triggers st := by
  intro triggers
  induction triggers with
  | nil => intro st h; rfl
  | cons tr rest ih =>
    intro st h
    simp only [runLoop]
    rw [h tr (by simp)]
    split
    · split
      · rfl
      · exact ih _ (fun u hu => h u (by simp [hu]))
    · exact ih _ (fun u hu => h u (by simp [hu]))

theorem runPreflight_ok (cfg : PreflightConfig) (req files : List String) (dryRun : Bool)
    (exec : List String → Bool)
    (hv : validateConfig cfg = .ok ())
    (hreq : ∀ n ∈ req, n ∈ cfg.Triggers.map (fun t => t.Name)) :
    runPreflight cfg req files dryRun exec =
      .ok ⟨(if dryRun then planOf cfg.Triggers (eligibleOf cfg req) files else []),
           (if dryRun then [] else planOf cfg.Triggers (eligibleOf cfg req) files),
           !dryRun && (planOf cfg.Triggers (eligibleOf cfg req) files).any
             (fun e => !exec e.2)⟩ := by
  unfold runPreflight
  simp only
  have hfind : (if req.isEmpty then cfg.Triggers.map (fun t => t.Name) else req).find?
      (fun n => !(cfg.Triggers.map (fun t => t.Name)).contains n) = none := by
    rw [List.find?_eq_none]
    intro n hn
    have hmem : n ∈ cfg.Triggers.map (fun t => t.Name) := by
      rcases hre : req.isEmpty with _ | _
      · rw [hre] at hn
        simp only [Bool.false_eq_true, if_false] at hn
        exact hreq n hn
      · rw [hre] at hn
        simpa using hn
    simp [hmem]
  rw [hfind]
  rw [runLoop_char _ files dryRun exec cfg.Triggers initState (validateConfig_all cfg hv)]
  have helig : (fun n => (if req.isEmpty then cfg.Triggers.map (fun t => t.Name) else req).contains n)
      = eligibleOf cfg req := rfl
  rw [helig]
  simp [initState]

theorem runPreflight_unknown (cfg : PreflightConfig) (req files : List String) (dryRun : Bool)
    (exec : List String → Bool) (n : String) (hn : n ∈ req)
    (hnot : n ∉ cfg.Triggers.map (fun t => t.Name)) :
    ∃ m ∈ req, m ∉ cfg.Triggers.map (fun t => t.Name) ∧
      runPreflight cfg req files dryRun exec = .error (.noSuchTrigger m, initState) := by
  unfold runPreflight
  simp only
  have hne : req.isEmpty = false := by
    cases req
    · simp at hn
    · rfl
  rw [hne]
  simp only [Bool.false_eq_true, if_false]
  have hs : (req.find? (fun x => !(cfg.Triggers.map (fun t => t.Name)).contains x)).isSome := by
    rw [List.find?_isSome]
    exact ⟨n, hn, by simp [hnot]⟩
  obtain ⟨m, hm⟩ := Option.isSome_iff_exists.mp hs
  rw [hm]
  refine ⟨m, List.mem_of_find?_eq_some hm, ?_, rfl⟩
  have hp := List.find?_some hm
  simpa using hp

theorem runPreflight_empty_req (cfg : PreflightConfig) (files : List String) (dryRun : Bool)
    (exec : List String → Bool) :
    runPreflight cfg [] files dryRun exec =
      runLoop (fun _ => true) files dryRun exec cfg.Triggers initState := by
  unfold runPreflight
  simp only [List.isEmpty_nil, if_true]
  have hfind : (cfg.Triggers.map (fun t => t.Name)).find?
      (fun x => !(cfg.Triggers.map (fun t => t.Name)).contains x) = none := by
    rw [List.find?_eq_none]
    intro x hx
    simp [hx]
  rw [hfind]
  exact runLoop_congr _ _ files dryRun exec cfg.Triggers initState
    (fun tr htr => by simp; exact ⟨tr, htr, rfl⟩)

theorem runPreflight_named (cfg : PreflightConfig) (req files : List String) (dryRun : Bool)
    (exec : List String → Bool) (hne : req ≠ [])
    (hex : ∀ n ∈ req, n ∈ cfg.Triggers.map (fun t => t.Name)) :
    runPreflight cfg req files dryRun exec =
      runLoop (fun n => req.contains n) files dryRun exec cfg.Triggers initState := by
  unfold runPreflight
  simp only
  have hemp : req.isEmpty = false := by
    cases req
    · exact absurd rfl hne
    · rfl
  rw [hemp]
  simp only [Bool.false_eq_true, if_false]
  have hfind : req.find? (fun x => !(cfg.Triggers.map (fun t => t.Name)).contains x) = none := by
    rw [List.find?_eq_none]
    intro x hx
    simp [hex x hx]
  rw [hfind]

theorem runPreflight_req_perm (cfg : PreflightConfig) (req₁ req₂ files : List String)
    (dryRun : Bool) (exec : List String → Bool)
    (h₁ : req₁ ≠ []) (h₂ : req₂ ≠ []) (hsame : ∀ n, n ∈ req₁ ↔ n ∈ req₂)
    (hex : ∀ n ∈ req₁, n ∈ cfg.Triggers.map (fun t => t.Name)) :
    runPreflight cfg req₁ files dryRun exec = runPreflight cfg req₂ files dryRun exec := by
  rw [runPreflight_named cfg req₁ files dryRun exec h₁ hex,
    runPreflight_named cfg req₂ files dryRun exec h₂ (fun n hn => hex n ((hsame n).mpr hn))]
  apply runLoop_congr
  intro tr htr
  simp
  exact hsame tr.Name

/-! # Claim theorems -/

/-- C1: for every trigger with well-formed patterns and every filename, the
matcher returns matched exactly when some include pattern matches and, for the
first matching include (in declared order), no exclude pattern matches the
same candidate name; an exclude hit after the first matching include yields
not-matched regardless of later includes (contained in the iff), and when no
include matches the result is not-matched with the excludes never consulted
(the result is the same for every exclude list). -/
theorem c1_include_exclude_semantics (tr : TriggerConfig) (fname : String)
    (hinc : ∀ p ∈ tr.Includes, patternOk p = true)
    (hexc : ∀ p ∈ tr.Excludes, patternOk p = true) :
    (matchTrigger tr fname = .ok true ↔
      ∃ pat, firstMatchingInclude tr fname = some pat ∧
        ∀ e ∈ tr.Excludes, pathMatch e (includeCandidate pat fname) ≠ .ok true)
    ∧ (matchTrigger tr fname = .ok true ∨ matchTrigger tr fname = .ok false)
    ∧ (firstMatchingInclude tr fname = none →
        ∀ excludes : List String, matchIncludes excludes fname tr.Includes = .ok false) := by
  have hchar := matchIncludes_eq tr.Excludes fname tr.Includes hinc hexc
  refine ⟨?_, ?_, matchIncludes_none fname tr.Includes hinc⟩
  · rw [matchTrigger, hchar]
    unfold firstMatchingInclude
    rcases hf : tr.Includes.find? (fun p => includeMatchB p fname) with _ | pat
    · simp
    · simp only
      constructor
      · intro h
        refine ⟨pat, rfl, ?_⟩
        simp only [Except.ok.injEq, Bool.not_eq_true'] at h
        rw [List.any_eq_false] at h
        intro e he hc
        have := h e he
        simp [hc] at this
      · rintro ⟨pat2, hpat2, hno⟩
        have hp2 : pat2 = pat := by
          simpa using hpat2.symm
        subst hp2
        have hany : (tr.Excludes.any fun e =>
            decide (pathMatch e (includeCandidate pat2 fname) = .ok true)) = false := by
          rw [List.any_eq_false]
          intro e he
          simp [hno e he]
        rw [hany]
        rfl
  · rw [matchTrigger, hchar]
    rcases hf : tr.Includes.find? (fun p => includeMatchB p fname) with _ | pat
    · exact Or.inr rfl
    · simp only
      rcases hb : (tr.Excludes.any fun e =>
          decide (pathMatch e (includeCandidate pat fname) = .ok true)) with _ | _
      · exact Or.inl rfl
      · exact Or.inr rfl

/-- Witness for C1 at a concrete trigger and filename. -/
theorem c1_witness :
    matchTrigger ⟨"go", ["lint"], "args", ["*.go"], ["*_test.go"]⟩ "a.go" = .ok true :=
  ((c1_include_exclude_semantics ⟨"go", ["lint"], "args", ["*.go"], ["*_test.go"]⟩ "a.go"
      (by decide) (by decide)).1).mpr ⟨"*.go", by decide, by decide⟩

/-- Counterexample to C2 as stated: with include `src/*` (which fixes the full
path as candidate) and exclude `a_test.go` (no separator), the claim's rule
compares the exclude against the basename and rejects `src/a_test.go`, but the
source compares it against the full path and accepts the file. -/
theorem c2_counterexample :
    matchTrigger ⟨"t", ["c"], "args", ["src/*"], ["a_test.go"]⟩ "src/a_test.go" = .ok true ∧
    matchTriggerOwnRule ⟨"t", ["c"], "args", ["src/*"], ["a_test.go"]⟩ "src/a_test.go"
      = .ok false := by
  exact ⟨by decide, by decide⟩

/-- C2 amended: each exclude pattern is evaluated against the candidate name
fixed by the first matching include pattern — the full path when that include
contains a separator, the basename otherwise — regardless of whether the
exclude pattern itself contains a separator. -/
theorem c2_amended (tr : TriggerConfig) (fname : String)
    (hinc : ∀ p ∈ tr.Includes, patternOk p = true)
    (hexc : ∀ p ∈ tr.Excludes, patternOk p = true)
    (pat : String) (hfirst : firstMatchingInclude tr fname = some pat) :
    matchTrigger tr fname =
      .ok (!tr.Excludes.any fun e =>
        decide (pathMatch e (includeCandidate pat fname) = .ok true)) := by
  rw [matchTrigger, matchIncludes_eq tr.Excludes fname tr.Includes hinc hexc]
  unfold firstMatchingInclude at hfirst
  rw [hfirst]

/-- Witness for the amended C2 at the counterexample input. -/
theorem c2_witness :
    matchTrigger ⟨"t", ["c"], "args", ["src/*"], ["a_test.go"]⟩ "src/a_test.go" =
      .ok (!(List.any ["a_test.go"] fun e =>
        decide (pathMatch e (includeCandidate "src/*" "src/a_test.go") = .ok true))) :=
  c2_amended ⟨"t", ["c"], "args", ["src/*"], ["a_test.go"]⟩ "src/a_test.go"
    (by decide) (by decide) "src/*" (by decide)

/-- C3: an include pattern without a path separator is compared against the
file's basename only, one with a separator against the full repository-relative
path; in particular `README.md` matches both `docs/README.md` and `README.md`,
while `docs/README.md` does not match a top-level `README.md`. -/
theorem c3_include_basename_rule :
    (∀ (pat fname nm : String) (cmd : List String) (it : String),
      matchTrigger ⟨nm, cmd, it, [pat], []⟩ fname =
        pathMatch pat (if containsSlash pat then fname else pathBase fname))
    ∧ matchTrigger ⟨"t", [], "args", ["README.md"], []⟩ "docs/README.md" = .ok true
    ∧ matchTrigger ⟨"t", [], "args", ["README.md"], []⟩ "README.md" = .ok true
    ∧ matchTrigger ⟨"t", [], "args", ["docs/README.md"], []⟩ "README.md" = .ok false := by
  refine ⟨?_, by decide, by decide, by decide⟩
  intro pat fname nm cmd it
  unfold matchTrigger
  simp only [matchIncludes]
  rcases hm : pathMatch pat (if containsSlash pat then fname else pathBase fname) with e | b
  · cases e
    rfl
  · cases b <;> rfl

/-- Counterexample to C4 as stated: in commit-hash mode the reported file list
is not deduplicated — a source list that repeats a path yields a changed-file
list that repeats it. -/
theorem c4_counterexample :
    (resolveChangedFiles (some ["a", "a"]) [] [] []).count "a" = 2 := by decide

/-- C4 amended: in the union mode the changed-file list holds each path
reported by any of the three sources exactly once and is sorted; in the
commit-hash mode it is exactly the reported commit file list sorted, with
multiplicities preserved (deduplicated only if the source list was). -/
theorem c4_amended (committed unstaged staged commitFs : List String) (p : String) :
    ((resolveChangedFiles none committed unstaged staged).count p
        = if p ∈ committed ++ unstaged ++ staged then 1 else 0)
    ∧ (resolveChangedFiles none committed unstaged staged).Sorted (fun a b => strLe a b = true)
    ∧ (resolveChangedFiles (some commitFs) committed unstaged staged).count p
        = commitFs.count p
    ∧ (resolveChangedFiles (some commitFs) committed unstaged staged).Sorted
        (fun a b => strLe a b = true) := by
  refine ⟨?_, sortStrings_sorted _, sortStrings_count _ _, sortStrings_sorted _⟩
  unfold resolveChangedFiles
  rw [sortStrings_count]
  by_cases hm : p ∈ committed ++ unstaged ++ staged
  · rw [if_pos hm]
    apply List.count_eq_one_of_mem (setUnion_nodup _)
    rw [mem_setUnion]
    simp at hm ⊢
    tauto
  · rw [if_neg hm]
    apply List.count_eq_zero_of_not_mem
    rw [mem_setUnion]
    simp at hm ⊢
    tauto

/-- C7: post-decode validation returns exactly the first violation in the
order the checks are declared — per trigger: duplicate name, then empty or
whitespace name, then input mode, then each include pattern, then each
exclude pattern — it never accumulates several errors, and it succeeds
exactly when the violation list is empty. -/
theorem c7_validation_first_violation (cfg : PreflightConfig) :
    validateConfig cfg =
      (match (configViolations [] cfg.Triggers).head? with
       | none => .ok ()
       | some e => .error e)
    ∧ (validateConfig cfg = .ok () ↔ configViolations [] cfg.Triggers = []) := by
  have h : validateConfig cfg =
      (match (configViolations [] cfg.Triggers).head? with
       | none => .ok ()
       | some e => .error e) := validateConfigLoop_eq cfg.Triggers []
  refine ⟨h, ?_⟩
  rw [h]
  rcases hl : configViolations [] cfg.Triggers with _ | ⟨v, vs⟩
  · simp
  · simp

/-- C5: with a valid config and known requested names, a live run returns the
full plan as the executed list — every eligible trigger with a nonempty match
set is executed, independently of which subprocesses fail — and the error flag
(hence the exit code) signals failure exactly when some executed command
failed. -/
theorem c5_failures_do_not_stop (cfg : PreflightConfig) (req files : List String)
    (exec : List String → Bool)
    (hv : validateConfig cfg = .ok ())
    (hreq : ∀ n ∈ req, n ∈ cfg.Triggers.map (fun t => t.Name)) :
    runPreflight cfg req files false exec =
      .ok ⟨[], planOf cfg.Triggers (eligibleOf cfg req) files,
           (planOf cfg.Triggers (eligibleOf cfg req) files).any (fun e => !exec e.2)⟩
    ∧ ((planOf cfg.Triggers (eligibleOf cfg req) files).any (fun e => !exec e.2) = true ↔
        ∃ e ∈ planOf cfg.Triggers (eligibleOf cfg req) files, exec e.2 = false)
    ∧ exitCode (runPreflight cfg req files false exec) =
        (if (planOf cfg.Triggers (eligibleOf cfg req) files).any (fun e => !exec e.2)
         then 1 else 0) := by
  have h := runPreflight_ok cfg req files false exec hv hreq
  simp only [Bool.false_eq_true, if_false, Bool.not_false, Bool.true_and] at h
  refine ⟨h, ?_, ?_⟩
  · rw [List.any_eq_true]
    constructor
    · rintro ⟨e, he, hx⟩
      exact ⟨e, he, by simpa using hx⟩
    · rintro ⟨e, he, hx⟩
      exact ⟨e, he, by simp [hx]⟩
  · rw [h]
    rfl

/-- Witness for C5: trigger A's command fails, trigger B still executes, and
the run signals failure. -/
theorem c5_witness :
    runPreflight ⟨[⟨"A", ["lintA"], "args", ["*.go"], []⟩,
                   ⟨"B", ["lintB"], "args", ["*.md"], []⟩]⟩ [] ["a.go", "b.md"] false
        (fun args => decide (args.head? = some "lintB")) =
      .ok ⟨[], planOf [⟨"A", ["lintA"], "args", ["*.go"], []⟩,
                       ⟨"B", ["lintB"], "args", ["*.md"], []⟩]
              (eligibleOf ⟨[⟨"A", ["lintA"], "args", ["*.go"], []⟩,
                            ⟨"B", ["lintB"], "args", ["*.md"], []⟩]⟩ []) ["a.go", "b.md"],
           true⟩ := by
  have h := (c5_failures_do_not_stop
    ⟨[⟨"A", ["lintA"], "args", ["*.go"], []⟩, ⟨"B", ["lintB"], "args", ["*.md"], []⟩]⟩
    [] ["a.go", "b.md"] (fun args => decide (args.head? = some "lintB"))
    (by decide) (by decide)).1
  rw [h]
  have hany : (planOf [⟨"A", ["lintA"], "args", ["*.go"], []⟩,
                       ⟨"B", ["lintB"], "args", ["*.md"], []⟩]
      (eligibleOf ⟨[⟨"A", ["lintA"], "args", ["*.go"], []⟩,
                    ⟨"B", ["lintB"], "args", ["*.md"], []⟩]⟩ []) ["a.go", "b.md"]).any
      (fun e => !(fun args => decide (args.head? = some "lintB")) e.2) = true := by decide
  rw [hany]

/-- C6: with an empty requested-name list every configured trigger is
eligible; an unknown requested name is fatal with the run state still empty
(no subprocess was spawned); when all requested names exist, exactly the
requested names are enabled. -/
theorem c6_trigger_selection (cfg : PreflightConfig) (req files : List String) (dryRun : Bool)
    (exec : List String → Bool) :
    (req = [] → runPreflight cfg [] files dryRun exec =
      runLoop (fun _ => true) files dryRun exec cfg.Triggers initState)
    ∧ (∀ n ∈ req, n ∉ cfg.Triggers.map (fun t => t.Name) →
        ∃ m ∈ req, m ∉ cfg.Triggers.map (fun t => t.Name) ∧
          runPreflight cfg req files dryRun exec = .error (.noSuchTrigger m, initState))
    ∧ (req ≠ [] → (∀ n ∈ req, n ∈ cfg.Triggers.map (fun t => t.Name)) →
        runPreflight cfg req files dryRun exec =
          runLoop (fun n => req.contains n) files dryRun exec cfg.Triggers initState) := by
  refine ⟨?_, ?_, ?_⟩
  · intro h
    exact runPreflight_empty_req cfg files dryRun exec
  · intro n hn hnot
    exact runPreflight_unknown cfg req files dryRun exec n hn hnot
  · intro hne hex
    exact runPreflight_named cfg req files dryRun exec hne hex

/-- Witness for C6: requesting a missing trigger fails fatally with nothing
executed. -/
theorem c6_witness :
    ∃ m ∈ ["missing-trigger"],
      m ∉ (PreflightConfig.mk [⟨"go", ["lint"], "args", ["*.go"], []⟩]).Triggers.map
        (fun t => t.Name) ∧
      runPreflight ⟨[⟨"go", ["lint"], "args", ["*.go"], []⟩]⟩ ["missing-trigger"] ["a.go"]
          false (fun _ => true) = .error (.noSuchTrigger m, initState) :=
  (c6_trigger_selection ⟨[⟨"go", ["lint"], "args", ["*.go"], []⟩]⟩ ["missing-trigger"]
    ["a.go"] false (fun _ => true)).2.1 "missing-trigger" (by decide) (by decide)

/-- C8: a dry run spawns no subprocess and prints one command line per
eligible matching trigger; a live run spawns exactly one subprocess per
eligible matching trigger; a trigger with an empty match set appears in
neither list (it is skipped without error), as the plan is the filtered map
over the config. -/
theorem c8_dry_run_and_skip (cfg : PreflightConfig) (req files : List String)
    (exec : List String → Bool)
    (hv : validateConfig cfg = .ok ())
    (hreq : ∀ n ∈ req, n ∈ cfg.Triggers.map (fun t => t.Name)) :
    runPreflight cfg req files true exec =
      .ok ⟨planOf cfg.Triggers (eligibleOf cfg req) files, [], false⟩
    ∧ runPreflight cfg req files false exec =
        .ok ⟨[], planOf cfg.Triggers (eligibleOf cfg req) files,
             (planOf cfg.Triggers (eligibleOf cfg req) files).any (fun e => !exec e.2)⟩
    ∧ planOf cfg.Triggers (eligibleOf cfg req) files =
        (cfg.Triggers.filter (fun tr => eligibleOf cfg req tr.Name
            && !(matchedFiles tr files).isEmpty)).map
          (fun tr => (tr.Name, tr.Cmd ++ matchedFiles tr files)) := by
  refine ⟨?_, ?_, rfl⟩
  · have h := runPreflight_ok cfg req files true exec hv hreq
    simpa using h
  · have h := runPreflight_ok cfg req files false exec hv hreq
    simpa using h

/-- Witness for C8: a dry run with one matching and one non-matching trigger
prints one line and executes nothing. -/
theorem c8_witness :
    runPreflight ⟨[⟨"A", ["lintA"], "args", ["*.go"], []⟩,
                   ⟨"B", ["lintB"], "args", ["*.md"], []⟩]⟩ [] ["a.go"] true
        (fun _ => false) =
      .ok ⟨planOf [⟨"A", ["lintA"], "args", ["*.go"], []⟩,
                   ⟨"B", ["lintB"], "args", ["*.md"], []⟩]
              (eligibleOf ⟨[⟨"A", ["lintA"], "args", ["*.go"], []⟩,
                            ⟨"B", ["lintB"], "args", ["*.md"], []⟩]⟩ []) ["a.go"],
           [], false⟩ :=
  (c8_dry_run_and_skip
    ⟨[⟨"A", ["lintA"], "args", ["*.go"], []⟩, ⟨"B", ["lintB"], "args", ["*.md"], []⟩]⟩
    [] ["a.go"] (fun _ => false) (by decide) (by decide)).1

/-- C9: the executed (or printed) trigger lines are the filtered map over the
config's trigger list, hence follow config declaration order; and the outcome
does not depend on the order of the requested names, only on their
membership. -/
theorem c9_declaration_order (cfg : PreflightConfig) (req files : List String)
    (dryRun : Bool) (exec : List String → Bool)
    (hv : validateConfig cfg = .ok ())
    (hreq : ∀ n ∈ req, n ∈ cfg.Triggers.map (fun t => t.Name)) :
    (∃ st : RunState, runPreflight cfg req files dryRun exec = .ok st ∧
      (if dryRun then st.dryRunLines else st.executed) =
        (cfg.Triggers.filter (fun tr => eligibleOf cfg req tr.Name
            && !(matchedFiles tr files).isEmpty)).map
          (fun tr => (tr.Name, tr.Cmd ++ matchedFiles tr files)))
    ∧ (∀ req₂ : List String, req ≠ [] → req₂ ≠ [] → (∀ n, n ∈ req ↔ n ∈ req₂) →
        runPreflight cfg req files dryRun exec = runPreflight cfg req₂ files dryRun exec) := by
  constructor
  · refine ⟨_, runPreflight_ok cfg req files dryRun exec hv hreq, ?_⟩
    rcases dryRun with _ | _
    · simp [planOf]
    · simp [planOf]
  · intro req₂ h₁ h₂ hsame
    exact runPreflight_req_perm cfg req req₂ files dryRun exec h₁ h₂ hsame hreq

/-- Witness for C9 at a two-trigger config with the requested names given in
reverse declaration order. -/
theorem c9_witness :
    (∃ st : RunState,
      runPreflight ⟨[⟨"A", ["lintA"], "args", ["*.go"], []⟩,
                     ⟨"B", ["lintB"], "args", ["*.md"], []⟩]⟩ ["B", "A"] ["a.go", "b.md"]
          false (fun _ => true) = .ok st ∧
      st.executed =
        ([⟨"A", ["lintA"], "args", ["*.go"], []⟩,
          ⟨"B", ["lintB"], "args", ["*.md"], []⟩].filter
            (fun tr => eligibleOf ⟨[⟨"A", ["lintA"], "args", ["*.go"], []⟩,
                                    ⟨"B", ["lintB"], "args", ["*.md"], []⟩]⟩ ["B", "A"] tr.Name
              && !(matchedFiles tr ["a.go", "b.md"]).isEmpty)).map
          (fun tr => (tr.Name, tr.Cmd ++ matchedFiles tr ["a.go", "b.md"]))) := by
  have h := (c9_declaration_order
    ⟨[⟨"A", ["lintA"], "args", ["*.go"], []⟩, ⟨"B", ["lintB"], "args", ["*.md"], []⟩]⟩
    ["B", "A"] ["a.go", "b.md"] false (fun _ => true) (by decide) (by decide)).1
  simpa using h

/-- C10: once a config passes validation, the matcher can never report a glob
syntax error for any of its triggers on any filename — the trial match of
every pattern against the empty string already rules the error branches out. -/
theorem c10_no_match_error (cfg : PreflightConfig) (h : validateConfig cfg = .ok ()) :
    ∀ tr ∈ cfg.Triggers, ∀ fname : String, exceptOk (matchTrigger tr fname) = true := by
  intro tr htr fname
  obtain ⟨-, hinc, hexc⟩ := validateTrigger_parts tr (validateConfig_all cfg h tr htr)
  exact matchTrigger_ok tr fname hinc hexc

/-- Witness for C10 at a validated config and an awkward filename. -/
theorem c10_witness :
    exceptOk (matchTrigger ⟨"go", ["lint"], "args", ["*.go"], ["*_test.go"]⟩
      "odd [ name.go") = true :=
  c10_no_match_error ⟨[⟨"go", ["lint"], "args", ["*.go"], ["*_test.go"]⟩]⟩ (by decide)
    ⟨"go", ["lint"], "args", ["*.go"], ["*_test.go"]⟩ (by decide) "odd [ name.go"

end GitPreflight
